import Mathlib

/-!
Verification of the owo-vision inference pipeline against its specification.

The embedding models the two decoders (positional one-hot decoder and the
simplified YOLO bounding-box decoder), the binarizing preprocessor's
`normalize` step, and the model-service lifecycle (`initialize` memoization,
`dispose`, `predict`) of `BaseONNXModelService`.

Machine floating-point buffer entries are modelled as rationals (`ℚ`); the
only non-finite values the code can produce — the `-Infinity` initial running
maximum of the argmax scans, and the `NaN`/`±Infinity` confidences of the box
decoder on out-of-range (`undefined`) reads — are modelled explicitly by
`Option` (for the running maximum) and by the extended value type `FloatVal`
(for box confidences).
-/

/-! ### One-hot decoder (`onehotDecode` / `HuntbotDecoder.decode`) -/

/-- Decoded character with confidence and position, from the one-hot decoder. -/
structure DecodedCharacter where
  char : String
  confidence : ℚ
  position : Nat
deriving DecidableEq, Repr

/-- Left-to-right argmax scan. Models the loop
`if (confidence > maxConfidence) { maxConfidence = confidence; maxIndex = offset }`
with the initial `maxConfidence = -Infinity, maxIndex = -1` modelled by the
`none` starting accumulator (any value beats `-Infinity`). `i` is the index
of the head of the remaining list. -/
def scanFrom (cur : Option (Nat × ℚ)) (i : Nat) : List ℚ → Option (Nat × ℚ)
  | [] => cur
  | v :: rest =>
    match cur with
    | none => scanFrom (some (i, v)) (i + 1) rest
    | some (j, m) =>
      if m < v then scanFrom (some (i, v)) (i + 1) rest
      else scanFrom (some (j, m)) (i + 1) rest

/-- The inner `for (offset = 0; offset < depth; offset++)` argmax loop of both
decoders, returning `none` exactly when the loop ends with `maxIndex === -1`. -/
def argmaxFirst (l : List ℚ) : Option (Nat × ℚ) := scanFrom none 0 l

/-- `i` is the first index of `l` attaining the maximum value `m`:
the index is in range, holds `m`, every entry is `≤ m`, and everything
strictly before `i` is strictly below `m`. -/
def IsFirstMax (l : List ℚ) (i : Nat) (m : ℚ) : Prop :=
  i < l.length ∧ l.getD i 0 = m ∧
    (∀ j, j < l.length → l.getD j 0 ≤ m) ∧ (∀ j, j < i → l.getD j 0 < m)

instance (l : List ℚ) (i : Nat) (m : ℚ) : Decidable (IsFirstMax l i m) := by
  unfold IsFirstMax; infer_instance

/-- Body of the per-position loop of the one-hot decoder: scan the block of
`depth` entries starting at `position * depth`; keep the result iff
`maxConfidence >= minConfidence && maxIndex !== -1` (the `take` of the `drop`
realizes the in-range reads — out-of-range reads are `undefined` and are
skipped by the loop's `confidence !== undefined` guard). -/
def onehotStep (array : List ℚ) (depth : Nat) (dec : Nat → String)
    (minConfidence : ℚ) (position : Nat) : Option DecodedCharacter :=
  match argmaxFirst ((array.drop (position * depth)).take depth) with
  | none => none
  | some (maxIndex, maxConfidence) =>
    if minConfidence ≤ maxConfidence then
      some { char := dec maxIndex, confidence := maxConfidence, position }
    else none

/-- `onehotDecode` (identical control flow to `HuntbotDecoder.decode`):
reject an empty buffer and a non-divisible length, else decode each of the
`numPositions = length / depth` blocks in order. -/
def onehotDecode (array : List ℚ) (depth : Nat) (dec : Nat → String)
    (minConfidence : ℚ) : Except String (List DecodedCharacter) :=
  if array.length = 0 then
    .error "Input array cannot be empty"
  else if array.length % depth ≠ 0 then
    .error ("Array length (" ++ toString array.length ++
      ") must be divisible by depth (" ++ toString depth ++ ")")
  else
    .ok ((List.range (array.length / depth)).filterMap
      (onehotStep array depth dec minConfidence))

/-- `lowercaseDecoder`: codes outside `a`–`z` map to the sentinel `"?"`
(the `code < 0` half of the source guard is vacuous over `Nat` indices). -/
def lowercaseDecoder (code : Nat) : String :=
  if code > 25 then "?" else String.mk [Char.ofNat (code + 97)]

/-! ### Properties of the argmax scan -/

theorem scanFrom_some_spec (l : List ℚ) : ∀ (i j : Nat) (m : ℚ),
    ∃ j' m', scanFrom (some (j, m)) i l = some (j', m') ∧ m ≤ m' ∧
      (∀ v ∈ l, v ≤ m') ∧
      ((j' = j ∧ m' = m) ∨
       (∃ k, k < l.length ∧ j' = i + k ∧ l.getD k 0 = m' ∧ m < m' ∧
         ∀ t, t < k → l.getD t 0 < m')) := by
  induction l with
  | nil =>
    intro i j m
    exact ⟨j, m, rfl, le_refl m, by simp, Or.inl ⟨rfl, rfl⟩⟩
  | cons v rest ih =>
    intro i j m
    by_cases hv : m < v
    · obtain ⟨j', m', hscan, hle, hall, hcase⟩ := ih (i + 1) i v
      refine ⟨j', m', ?_, le_of_lt (lt_of_lt_of_le hv hle), ?_, ?_⟩
      · simpa [scanFrom, hv] using hscan
      · intro x hx
        rcases List.mem_cons.mp hx with rfl | hx
        · exact hle
        · exact hall x hx
      · right
        rcases hcase with ⟨hj', hm'⟩ | ⟨k, hk, hj', hget, hlt, hprev⟩
        · refine ⟨0, by simp, by omega, by simp [hm'], by simpa [hm'] using hv, ?_⟩
          intro t ht; omega
        · refine ⟨k + 1, by simp only [List.length_cons]; omega, by omega,
            by simpa [List.getD_cons_succ] using hget, lt_trans hv hlt, ?_⟩
          intro t ht
          match t with
          | 0 => simpa [List.getD_cons_zero] using hlt
          | t + 1 => simpa [List.getD_cons_succ] using hprev t (by omega)
    · obtain ⟨j', m', hscan, hle, hall, hcase⟩ := ih (i + 1) j m
      refine ⟨j', m', ?_, hle, ?_, ?_⟩
      · simpa [scanFrom, hv] using hscan
      · intro x hx
        rcases List.mem_cons.mp hx with rfl | hx
        · exact le_trans (not_lt.mp hv) hle
        · exact hall x hx
      · rcases hcase with ⟨hj', hm'⟩ | ⟨k, hk, hj', hget, hlt, hprev⟩
        · exact Or.inl ⟨hj', hm'⟩
        · refine Or.inr ⟨k + 1, by simp only [List.length_cons]; omega, by omega,
            by simpa [List.getD_cons_succ] using hget, hlt, ?_⟩
          intro t ht
          match t with
          | 0 => simpa [List.getD_cons_zero] using lt_of_le_of_lt (not_lt.mp hv) hlt
          | t + 1 => simpa [List.getD_cons_succ] using hprev t (by omega)

/-- On a non-empty list the argmax loop ends with a valid index and the
first-max characterization holds. -/
theorem argmaxFirst_isFirstMax (l : List ℚ) (hne : l ≠ []) :
    ∃ i m, argmaxFirst l = some (i, m) ∧ IsFirstMax l i m := by
  cases l with
  | nil => exact absurd rfl hne
  | cons v rest =>
    obtain ⟨j', m', hscan, hle, hall, hcase⟩ := scanFrom_some_spec rest 1 0 v
    have harg : argmaxFirst (v :: rest) = some (j', m') := by
      simpa [argmaxFirst, scanFrom] using hscan
    have hallD : ∀ t, t < (v :: rest).length → (v :: rest).getD t 0 ≤ m' := by
      intro t ht
      match t with
      | 0 => simpa [List.getD_cons_zero] using hle
      | t + 1 =>
        have htr : t < rest.length := by
          simp only [List.length_cons] at ht; omega
        have hmem : rest.getD t 0 ∈ rest := by
          rw [List.getD_eq_getElem rest 0 htr]
          exact List.getElem_mem htr
        simpa [List.getD_cons_succ] using hall _ hmem
    refine ⟨j', m', harg, ?_, ?_, hallD, ?_⟩
    · rcases hcase with ⟨hj', _⟩ | ⟨k, hk, hj', _, _, _⟩
      · simp [hj']
      · simp only [List.length_cons]; omega
    · rcases hcase with ⟨hj', hm'⟩ | ⟨k, hk, hj', hget, _, _⟩
      · subst hj' hm'; simp
      · have hj'k : j' = k + 1 := by omega
        subst hj'k
        simpa [List.getD_cons_succ] using hget
    · rcases hcase with ⟨hj', hm'⟩ | ⟨k, hk, hj', hget, hlt, hprev⟩
      · subst hj'; intro t ht; omega
      · intro t ht
        have hj'k : j' = k + 1 := by omega
        subst hj'k
        match t with
        | 0 => simpa [List.getD_cons_zero] using hlt
        | t + 1 =>
          have htk : t < k := by omega
          simpa [List.getD_cons_succ] using hprev t htk

/-! ### filterMap helper lemmas -/

theorem length_filterMap_le_of_isSome {α β : Type} (f g : α → Option β)
    (h : ∀ a, (g a).isSome → (f a).isSome) (l : List α) :
    (l.filterMap g).length ≤ (l.filterMap f).length := by
  induction l with
  | nil => simp
  | cons a l ih =>
    simp only [List.filterMap_cons]
    cases hg : g a with
    | none =>
      cases hf : f a with
      | none => exact ih
      | some b => exact Nat.le_succ_of_le ih
    | some b =>
      obtain ⟨c, hc⟩ := Option.isSome_iff_exists.mp (h a (by simp [hg]))
      rw [hc]
      simpa using ih

theorem pairwise_position_filterMap {β : Type} (pos : β → Nat) (f : Nat → Option β)
    (hf : ∀ a r, f a = some r → pos r = a) :
    ∀ l : List Nat, l.Pairwise (· < ·) →
      (l.filterMap f).Pairwise (fun x y => pos x < pos y) := by
  intro l
  induction l with
  | nil => intro; simp
  | cons a l ih =>
    intro hp
    rcases List.pairwise_cons.mp hp with ⟨ha, hl⟩
    simp only [List.filterMap_cons]
    cases hfa : f a with
    | none => exact ih hl
    | some b =>
      refine List.pairwise_cons.mpr ⟨?_, ih hl⟩
      intro y hy
      obtain ⟨c, hc, hcy⟩ := List.mem_filterMap.mp hy
      rw [hf a b hfa, hf c y hcy]
      exact ha c hc

/-- Any result produced by the one-hot per-position step carries that position,
comes from a successful argmax scan, and clears the threshold. -/
theorem onehotStep_eq_some (array : List ℚ) (depth : Nat) (dec : Nat → String)
    (minC : ℚ) (a : Nat) (r : DecodedCharacter)
    (h : onehotStep array depth dec minC a = some r) :
    r.position = a ∧ ∃ i m,
      argmaxFirst ((array.drop (a * depth)).take depth) = some (i, m) ∧
      minC ≤ m ∧ r = ⟨dec i, m, a⟩ := by
  unfold onehotStep at h
  split at h
  · exact absurd h (by simp)
  · rename_i i m harg
    split at h
    · rename_i hc
      cases h
      exact ⟨rfl, i, m, harg, hc, rfl⟩
    · exact absurd h (by simp)

/-! ### Claims about the one-hot decoder -/

/-- C5: the one-hot decoder fails on an empty input buffer, and on any buffer
whose length is not divisible by `depth` it fails with an error message naming
both the buffer length and the depth; in both failure cases no results are
produced (the decoder returns an error, not a result list). -/
theorem C5_onehot_failure_modes (depth : Nat) (dec : Nat → String) (minC : ℚ) :
    onehotDecode [] depth dec minC = .error "Input array cannot be empty" ∧
    ∀ array : List ℚ, array ≠ [] → array.length % depth ≠ 0 →
      onehotDecode array depth dec minC =
        .error ("Array length (" ++ toString array.length ++
          ") must be divisible by depth (" ++ toString depth ++ ")") := by
  refine ⟨rfl, ?_⟩
  intro array hne hmod
  have hlen : array.length ≠ 0 := by simpa [List.length_eq_zero] using hne
  simp [onehotDecode, hlen, hmod]

theorem C5_onehot_failure_modes_witness :
    onehotDecode (List.replicate 10 (0 : ℚ)) 3 lowercaseDecoder 0 =
      .error "Array length (10) must be divisible by depth (3)" := by
  have h := (C5_onehot_failure_modes 3 lowercaseDecoder 0).2
    (List.replicate 10 (0 : ℚ)) (by decide) (by decide)
  exact h

/-- C1: for every non-empty buffer whose length is divisible by `depth`, the
one-hot decoder partitions the buffer into `length / depth` contiguous blocks
and, for each block, selects the first index attaining the maximum value
(strict `>` comparison, ties keep the earliest index); the block contributes
the result with that maximum as its confidence if and only if the maximum is
`>= minConfidence`, otherwise the position is dropped from the output. -/
theorem C1_onehot_blockwise_first_max (array : List ℚ) (depth : Nat)
    (dec : Nat → String) (minC : ℚ)
    (hne : array ≠ []) (hdvd : array.length % depth = 0) :
    ∃ out, onehotDecode array depth dec minC = .ok out ∧
      ∀ p, p < array.length / depth →
        ∃ i m, IsFirstMax ((array.drop (p * depth)).take depth) i m ∧
          ((⟨dec i, m, p⟩ : DecodedCharacter) ∈ out ↔ minC ≤ m) ∧
          ∀ r ∈ out, r.position = p → r = ⟨dec i, m, p⟩ := by
  have hlen : array.length ≠ 0 := by simpa [List.length_eq_zero] using hne
  have hok : onehotDecode array depth dec minC =
      .ok ((List.range (array.length / depth)).filterMap
        (onehotStep array depth dec minC)) := by
    simp [onehotDecode, hlen, hdvd]
  refine ⟨_, hok, ?_⟩
  intro p hp
  have hdd : depth ∣ array.length := Nat.dvd_of_mod_eq_zero hdvd
  have hdpos : 0 < depth := by
    rcases Nat.eq_zero_or_pos depth with h0 | h
    · rw [h0, Nat.mod_zero] at hdvd
      exact absurd hdvd hlen
    · exact h
  have hmul : p * depth + depth ≤ array.length := by
    calc p * depth + depth = (p + 1) * depth := (Nat.succ_mul p depth).symm
      _ ≤ (array.length / depth) * depth :=
          Nat.mul_le_mul_right _ (Nat.succ_le_of_lt hp)
      _ = array.length := Nat.div_mul_cancel hdd
  have hblen : ((array.drop (p * depth)).take depth).length = depth := by
    rw [List.length_take, List.length_drop]
    omega
  have hbne : (array.drop (p * depth)).take depth ≠ [] := by
    intro h
    rw [h] at hblen
    simp at hblen
    omega
  obtain ⟨i, m, hsome, hifm⟩ :=
    argmaxFirst_isFirstMax ((array.drop (p * depth)).take depth) hbne
  refine ⟨i, m, hifm, ?_, ?_⟩
  · constructor
    · intro hmem
      obtain ⟨a, _, hstep⟩ := List.mem_filterMap.mp hmem
      obtain ⟨hpos, i', m', harg', hc', hreq⟩ :=
        onehotStep_eq_some _ _ _ _ _ _ hstep
      have hap : a = p := hpos.symm
      subst hap
      rw [hsome] at harg'
      have him : i = i' ∧ m = m' := by simpa using harg'
      exact him.2 ▸ hc'
    · intro hc
      refine List.mem_filterMap.mpr ⟨p, List.mem_range.mpr hp, ?_⟩
      unfold onehotStep
      rw [hsome]
      simp [hc]
  · intro r hr hrp
    obtain ⟨a, _, hstep⟩ := List.mem_filterMap.mp hr
    obtain ⟨hpos, i', m', harg', hc', hreq⟩ :=
      onehotStep_eq_some _ _ _ _ _ _ hstep
    have hap : a = p := by rw [← hpos, hrp]
    subst hap
    rw [hsome] at harg'
    have him : i = i' ∧ m = m' := by simpa using harg'
    rw [hreq, ← him.1, ← him.2]

theorem C1_onehot_blockwise_first_max_witness :
    ∃ out, onehotDecode [1/2, 1/2, 1/10, 0, 1, 0] 3 lowercaseDecoder 0 = .ok out ∧
      ∀ p, p < ([1/2, 1/2, 1/10, 0, 1, 0] : List ℚ).length / 3 →
        ∃ i m, IsFirstMax ((([1/2, 1/2, 1/10, 0, 1, 0] : List ℚ).drop (p * 3)).take 3) i m ∧
          ((⟨lowercaseDecoder i, m, p⟩ : DecodedCharacter) ∈ out ↔ (0 : ℚ) ≤ m) ∧
          ∀ r ∈ out, r.position = p → r = ⟨lowercaseDecoder i, m, p⟩ :=
  C1_onehot_blockwise_first_max [1/2, 1/2, 1/10, 0, 1, 0] 3 lowercaseDecoder 0
    (by decide) (by decide)

/-- C6: for every `depth > 0` and buffer length divisible by `depth`, whenever
the one-hot decoder returns a result list it has at most `length / depth`
entries, every result's position is below `length / depth`, and positions are
strictly increasing across the output. -/
theorem C6_onehot_output_shape (array : List ℚ) (depth : Nat)
    (dec : Nat → String) (minC : ℚ)
    (_hd : 0 < depth) (hdvd : array.length % depth = 0) :
    ∀ out, onehotDecode array depth dec minC = .ok out →
      out.length ≤ array.length / depth ∧
      (∀ r ∈ out, r.position < array.length / depth) ∧
      out.Pairwise (fun a b => a.position < b.position) := by
  intro out hout
  by_cases hlen : array.length = 0
  · rw [onehotDecode, if_pos hlen] at hout
    exact absurd hout (by simp)
  · have hok : onehotDecode array depth dec minC =
        .ok ((List.range (array.length / depth)).filterMap
          (onehotStep array depth dec minC)) := by
      simp [onehotDecode, hlen, hdvd]
    rw [hok] at hout
    obtain rfl : out = _ := (Except.ok.inj hout).symm
    refine ⟨by simpa using List.length_filterMap_le _ (List.range (array.length / depth)), ?_, ?_⟩
    · intro r hr
      obtain ⟨a, ha, hstep⟩ := List.mem_filterMap.mp hr
      rw [(onehotStep_eq_some _ _ _ _ _ _ hstep).1]
      exact List.mem_range.mp ha
    · exact pairwise_position_filterMap _ _
        (fun a r h => (onehotStep_eq_some _ _ _ _ _ _ h).1) _
        (List.pairwise_lt_range _)

theorem C6_onehot_output_shape_witness :
    ([⟨"a", 1/2, 0⟩, ⟨"b", 1, 1⟩] : List DecodedCharacter).length ≤
      ([1/2, 1/2, 1/10, 0, 1, 0] : List ℚ).length / 3 ∧
    (∀ r ∈ ([⟨"a", 1/2, 0⟩, ⟨"b", 1, 1⟩] : List DecodedCharacter),
      r.position < ([1/2, 1/2, 1/10, 0, 1, 0] : List ℚ).length / 3) ∧
    ([⟨"a", 1/2, 0⟩, ⟨"b", 1, 1⟩] : List DecodedCharacter).Pairwise
      (fun a b => a.position < b.position) :=
  C6_onehot_output_shape [1/2, 1/2, 1/10, 0, 1, 0] 3 lowercaseDecoder 0
    (by decide) (by decide) [⟨"a", 1/2, 0⟩, ⟨"b", 1, 1⟩]
    (by with_unfolding_all rfl)

/-! ### Bounding-box decoder (`YOLODecoder.decode`)

The decoder indexes the raw buffer with the non-null assertion `!`, which at
runtime still yields `undefined` past the end of the buffer: a read is
modelled with `List.get?`. The loop bound `numBoxes = array.length / (5 +
numClasses)` is a JavaScript float division, so the loop body runs for every
`i` with `i * (5 + numClasses) < array.length`, i.e. `⌈length / stride⌉`
times, and the trailing partial record is processed with `undefined` reads.
`undefined` propagates as: any `<`/`>=` comparison with it is false, and
`undefined * x` is `NaN`. -/

/-- Extended value for the box decoder's confidence, which can be `NaN` or
`±Infinity` when a record is read past the end of the buffer (the class-prob
running maximum starts at `-Infinity`). -/
inductive FloatVal where
  | fin (q : ℚ)
  | posInf
  | negInf
  | nan
deriving DecidableEq, Repr

/-- JS `a < b` where `a` may be `undefined` (any comparison with `undefined`
is false). -/
def jsLt (a : Option ℚ) (b : ℚ) : Bool :=
  match a with
  | none => false
  | some x => decide (x < b)

/-- JS `objectness * maxClassProb`: `undefined * x = NaN`; a finite
`objectness` times the initial `-Infinity` running maximum is `±Infinity` by
sign (`NaN` at zero). -/
def jsMul (obj : Option ℚ) (p : Option ℚ) : FloatVal :=
  match obj, p with
  | none, _ => .nan
  | some o, some q => .fin (o * q)
  | some o, none => if o < 0 then .posInf else if o = 0 then .nan else .negInf

/-- JS `c >= m` on the extended confidence value (`NaN >= m` is false). -/
def jsGe (c : FloatVal) (m : ℚ) : Bool :=
  match c with
  | .fin q => decide (m ≤ q)
  | .posInf => true
  | .negInf => false
  | .nan => false

/-- `classNames[maxClassIdx] ?? `class_${maxClassIdx}``: a negative or
out-of-range index reads `undefined` and falls back to the synthetic name. -/
def pickClassName (classNames : List String) (idx : Int) : String :=
  if h : 0 ≤ idx ∧ idx.toNat < classNames.length then
    classNames.get ⟨idx.toNat, h.2⟩
  else "class_" ++ toString idx

/-- The final value of `maxClassIdx` (`-1` when the scan never fired). -/
def classIdx (maxClass : Option (Nat × ℚ)) : Int :=
  match maxClass with
  | none => -1
  | some (c, _) => (c : Int)

/-- Bounding box emitted by the box decoder (`class` is the source's field
name). -/
structure BoundingBox where
  x : ℚ
  y : ℚ
  width : ℚ
  height : ℚ
  «class» : String
  confidence : FloatVal
deriving DecidableEq, Repr

/-- `DecodedResult<BoundingBox>` as pushed by `YOLODecoder.decode`. -/
structure YoloResult where
  value : BoundingBox
  confidence : FloatVal
  position : Nat
deriving DecidableEq, Repr

/-- Body of the per-record loop of `YOLODecoder.decode`: skip when
`objectness < minConfidence` (false for an `undefined` read, so a trailing
partial record is *not* skipped), run the first-max class scan over the
in-range class probabilities, and emit iff `confidence >= minConfidence`.
The `x,y,w,h` fields use `getD _ 0`: a record can only be emitted when its
`objectness` read is in range, making all four header reads in range too. -/
def yoloStep (array : List ℚ) (numClasses : Nat) (classNames : List String)
    (minConfidence : ℚ) (i : Nat) : Option YoloResult :=
  let offset := i * (5 + numClasses)
  let objectness := array.get? (offset + 4)
  if jsLt objectness minConfidence then none
  else
    let maxClass := argmaxFirst ((array.drop (offset + 5)).take numClasses)
    let confidence := jsMul objectness (maxClass.map Prod.snd)
    if jsGe confidence minConfidence then
      some { value := { x := array.getD offset 0, y := array.getD (offset + 1) 0,
                        width := array.getD (offset + 2) 0,
                        height := array.getD (offset + 3) 0,
                        «class» := pickClassName classNames (classIdx maxClass),
                        confidence := confidence },
             confidence := confidence, position := i }
    else none

/-- `YOLODecoder.decode`: fixed-stride records in box-index order; the loop
runs `⌈length / (5 + numClasses)⌉` times (see the section comment). -/
def yoloDecode (array : List ℚ) (numClasses : Nat) (classNames : List String)
    (minConfidence : ℚ) : List YoloResult :=
  let stride := 5 + numClasses
  (List.range ((array.length + stride - 1) / stride)).filterMap
    (yoloStep array numClasses classNames minConfidence)

/-! ### Properties of the box decoder -/

theorem argmaxFirst_lt_length (l : List ℚ) (c : Nat) (m : ℚ)
    (h : argmaxFirst l = some (c, m)) : c < l.length := by
  cases l with
  | nil => exact absurd h (by simp [argmaxFirst, scanFrom])
  | cons v rest =>
    obtain ⟨i', m', hsome, hifm⟩ := argmaxFirst_isFirstMax (v :: rest) (by simp)
    rw [h] at hsome
    have : c = i' ∧ m = m' := by simpa using hsome
    exact this.1 ▸ hifm.1

/-- Any result produced by the box decoder's per-record step carries that
record index, passed the objectness prefilter, cleared the confidence
threshold, and is exactly the record built from the buffer reads. -/
theorem yoloStep_eq_some (array : List ℚ) (nC : Nat) (cns : List String)
    (minC : ℚ) (i : Nat) (r : YoloResult)
    (h : yoloStep array nC cns minC i = some r) :
    r.position = i ∧
    jsLt (array.get? (i * (5 + nC) + 4)) minC = false ∧
    jsGe (jsMul (array.get? (i * (5 + nC) + 4))
      ((argmaxFirst ((array.drop (i * (5 + nC) + 5)).take nC)).map Prod.snd)) minC = true ∧
    r = { value := { x := array.getD (i * (5 + nC)) 0,
                     y := array.getD (i * (5 + nC) + 1) 0,
                     width := array.getD (i * (5 + nC) + 2) 0,
                     height := array.getD (i * (5 + nC) + 3) 0,
                     «class» := pickClassName cns (classIdx
                       (argmaxFirst ((array.drop (i * (5 + nC) + 5)).take nC))),
                     confidence := jsMul (array.get? (i * (5 + nC) + 4))
                       ((argmaxFirst ((array.drop (i * (5 + nC) + 5)).take nC)).map Prod.snd) },
          confidence := jsMul (array.get? (i * (5 + nC) + 4))
            ((argmaxFirst ((array.drop (i * (5 + nC) + 5)).take nC)).map Prod.snd),
          position := i } := by
  unfold yoloStep at h
  dsimp only at h
  by_cases h1 : jsLt (array.get? (i * (5 + nC) + 4)) minC = true
  · rw [if_pos h1] at h
    exact absurd h (by simp)
  · rw [if_neg h1] at h
    by_cases h2 : jsGe (jsMul (array.get? (i * (5 + nC) + 4))
        ((argmaxFirst ((array.drop (i * (5 + nC) + 5)).take nC)).map Prod.snd)) minC = true
    · rw [if_pos h2] at h
      cases h
      exact ⟨rfl, by simpa using h1, h2, rfl⟩
    · rw [if_neg h2] at h
      exact absurd h (by simp)

theorem get?_eq_some_getD (l : List ℚ) (n : Nat) (h : n < l.length) :
    l.get? n = some (l.getD n 0) := by
  rw [List.getD_eq_getElem l 0 h, List.get?_eq_getElem?, List.getElem?_eq_getElem h]

/-- C2: over whole fixed-stride records, a record is skipped entirely when
`objectness < minConfidence`; otherwise the class index with maximum class
probability is selected (first-max tie-break), the final confidence is
`objectness * maxClassProb`, and the record is emitted iff that product is
`>= minConfidence`; the output is in box-index order, never confidence
order. -/
theorem C2_yolo_record_semantics (array : List ℚ) (nC : Nat) (cns : List String)
    (minC : ℚ) (hnc : 0 < nC) (hdvd : (5 + nC) ∣ array.length) :
    (∀ i, i < array.length / (5 + nC) →
      ∃ ci p res, IsFirstMax ((array.drop (i * (5 + nC) + 5)).take nC) ci p ∧
        res = ({ value := { x := array.getD (i * (5 + nC)) 0,
                            y := array.getD (i * (5 + nC) + 1) 0,
                            width := array.getD (i * (5 + nC) + 2) 0,
                            height := array.getD (i * (5 + nC) + 3) 0,
                            «class» := pickClassName cns (ci : Int),
                            confidence := .fin (array.getD (i * (5 + nC) + 4) 0 * p) },
                 confidence := .fin (array.getD (i * (5 + nC) + 4) 0 * p),
                 position := i } : YoloResult) ∧
        (array.getD (i * (5 + nC) + 4) 0 < minC →
          ∀ r ∈ yoloDecode array nC cns minC, r.position ≠ i) ∧
        (minC ≤ array.getD (i * (5 + nC) + 4) 0 →
          ((res ∈ yoloDecode array nC cns minC) ↔
            minC ≤ array.getD (i * (5 + nC) + 4) 0 * p) ∧
          ∀ r ∈ yoloDecode array nC cns minC, r.position = i → r = res)) ∧
    (yoloDecode array nC cns minC).Pairwise (fun a b => a.position < b.position) := by
  have hs : 0 < 5 + nC := by omega
  have hnum : (array.length + (5 + nC) - 1) / (5 + nC) = array.length / (5 + nC) := by
    obtain ⟨q, hq⟩ := hdvd
    rw [hq]
    have h1 : (5 + nC) * q + (5 + nC) - 1 = (5 + nC) * q + ((5 + nC) - 1) := by omega
    rw [h1, Nat.mul_add_div hs, Nat.div_eq_of_lt (by omega), Nat.add_zero,
      Nat.mul_div_cancel_left q hs]
  have hout : yoloDecode array nC cns minC =
      (List.range (array.length / (5 + nC))).filterMap (yoloStep array nC cns minC) := by
    unfold yoloDecode
    dsimp only
    rw [hnum]
  constructor
  · intro i hi
    have hfull : i * (5 + nC) + (5 + nC) ≤ array.length := by
      obtain ⟨q, hq⟩ := hdvd
      have hq' : array.length / (5 + nC) = q := by
        rw [hq, Nat.mul_div_cancel_left q hs]
      rw [hq'] at hi
      calc i * (5 + nC) + (5 + nC) = (i + 1) * (5 + nC) := by ring
        _ ≤ q * (5 + nC) := Nat.mul_le_mul_right _ (by omega)
        _ = array.length := by rw [hq]; ring
    have hobj : array.get? (i * (5 + nC) + 4) =
        some (array.getD (i * (5 + nC) + 4) 0) :=
      get?_eq_some_getD _ _ (by omega)
    have hplen : ((array.drop (i * (5 + nC) + 5)).take nC).length = nC := by
      rw [List.length_take, List.length_drop]
      omega
    have hpne : (array.drop (i * (5 + nC) + 5)).take nC ≠ [] := by
      intro hx
      rw [hx] at hplen
      simp at hplen
      omega
    obtain ⟨ci, p, hsome, hifm⟩ := argmaxFirst_isFirstMax _ hpne
    refine ⟨ci, p, _, hifm, rfl, ?_, ?_⟩
    · intro hlt r hr hpos
      rw [hout] at hr
      obtain ⟨a, _, hstep⟩ := List.mem_filterMap.mp hr
      have hpa := (yoloStep_eq_some _ _ _ _ _ _ hstep).1
      have ha : a = i := by rw [← hpa, hpos]
      subst ha
      have hlt' := (yoloStep_eq_some _ _ _ _ _ _ hstep).2.1
      rw [hobj] at hlt'
      simp only [jsLt, decide_eq_false_iff_not, not_lt] at hlt'
      exact absurd hlt (not_lt.mpr hlt')
    · intro hge
      constructor
      · constructor
        · intro hmem
          rw [hout] at hmem
          obtain ⟨a, _, hstep⟩ := List.mem_filterMap.mp hmem
          obtain ⟨hpa, hlt', hge', _⟩ := yoloStep_eq_some _ _ _ _ _ _ hstep
          have ha : a = i := by simpa using hpa.symm
          subst ha
          rw [hobj, hsome] at hge'
          simpa [jsMul, jsGe] using hge'
        · intro hconf
          rw [hout]
          refine List.mem_filterMap.mpr ⟨i, List.mem_range.mpr hi, ?_⟩
          unfold yoloStep
          dsimp only
          rw [hobj, hsome]
          have hc1 : ¬(jsLt (some (array.getD (i * (5 + nC) + 4) 0)) minC = true) := by
            simpa [jsLt] using hge
          rw [if_neg hc1]
          have hc2 : jsGe (jsMul (some (array.getD (i * (5 + nC) + 4) 0))
              ((some (ci, p)).map Prod.snd)) minC = true := by
            simpa [jsMul, jsGe] using hconf
          rw [if_pos hc2]
          rfl
      · intro r hr hrpos
        rw [hout] at hr
        obtain ⟨a, _, hstep⟩ := List.mem_filterMap.mp hr
        obtain ⟨hpa, _, _, hreq⟩ := yoloStep_eq_some _ _ _ _ _ _ hstep
        have ha : a = i := by rw [← hpa, hrpos]
        subst ha
        rw [hreq, hobj, hsome]
        rfl
  · rw [hout]
    exact pairwise_position_filterMap YoloResult.position _
      (fun a r h => (yoloStep_eq_some _ _ _ _ _ _ h).1) _
      (List.pairwise_lt_range _)

theorem C2_yolo_record_semantics_witness :
    ∃ ci p res,
      IsFirstMax ((([0, 0, 0, 0, 9/10, 1/10, 1/20, 4/5] : List ℚ).drop
        (0 * (5 + 3) + 5)).take 3) ci p ∧
      res = ({ value := { x := ([0, 0, 0, 0, 9/10, 1/10, 1/20, 4/5] : List ℚ).getD (0 * (5 + 3)) 0,
                          y := ([0, 0, 0, 0, 9/10, 1/10, 1/20, 4/5] : List ℚ).getD (0 * (5 + 3) + 1) 0,
                          width := ([0, 0, 0, 0, 9/10, 1/10, 1/20, 4/5] : List ℚ).getD (0 * (5 + 3) + 2) 0,
                          height := ([0, 0, 0, 0, 9/10, 1/10, 1/20, 4/5] : List ℚ).getD (0 * (5 + 3) + 3) 0,
                          «class» := pickClassName ["a", "b", "c"] (ci : Int),
                          confidence := .fin (([0, 0, 0, 0, 9/10, 1/10, 1/20, 4/5] : List ℚ).getD (0 * (5 + 3) + 4) 0 * p) },
               confidence := .fin (([0, 0, 0, 0, 9/10, 1/10, 1/20, 4/5] : List ℚ).getD (0 * (5 + 3) + 4) 0 * p),
               position := 0 } : YoloResult) ∧
      (([0, 0, 0, 0, 9/10, 1/10, 1/20, 4/5] : List ℚ).getD (0 * (5 + 3) + 4) 0 < 1/4 →
        ∀ r ∈ yoloDecode [0, 0, 0, 0, 9/10, 1/10, 1/20, 4/5] 3 ["a", "b", "c"] (1/4),
          r.position ≠ 0) ∧
      (1/4 ≤ ([0, 0, 0, 0, 9/10, 1/10, 1/20, 4/5] : List ℚ).getD (0 * (5 + 3) + 4) 0 →
        ((res ∈ yoloDecode [0, 0, 0, 0, 9/10, 1/10, 1/20, 4/5] 3 ["a", "b", "c"] (1/4)) ↔
          1/4 ≤ ([0, 0, 0, 0, 9/10, 1/10, 1/20, 4/5] : List ℚ).getD (0 * (5 + 3) + 4) 0 * p) ∧
        ∀ r ∈ yoloDecode [0, 0, 0, 0, 9/10, 1/10, 1/20, 4/5] 3 ["a", "b", "c"] (1/4),
          r.position = 0 → r = res) :=
  (C2_yolo_record_semantics [0, 0, 0, 0, 9/10, 1/10, 1/20, 4/5] 3 ["a", "b", "c"] (1/4)
    (by decide) (by decide)).1 0 (by decide)

/-! ### Monotonicity of the confidence threshold -/

theorem jsLt_anti (a : Option ℚ) (minC minC' : ℚ) (h : minC ≤ minC')
    (hl : jsLt a minC' = false) : jsLt a minC = false := by
  cases a with
  | none => rfl
  | some o =>
    simp only [jsLt, decide_eq_false_iff_not, not_lt] at *
    exact le_trans h hl

theorem jsGe_anti (c : FloatVal) (minC minC' : ℚ) (h : minC ≤ minC')
    (hg : jsGe c minC' = true) : jsGe c minC = true := by
  cases c with
  | fin q =>
    simp only [jsGe, decide_eq_true_eq] at *
    exact le_trans h hg
  | posInf => rfl
  | negInf => exact absurd hg (by simp [jsGe])
  | nan => exact absurd hg (by simp [jsGe])

/-- C7: `minConfidence` filtering is monotonic for both decoders: for the
same input buffer, decoding with a higher threshold never yields more results
than decoding with a lower one. -/
theorem C7_minConfidence_monotone (array : List ℚ) (depth nC : Nat)
    (cns : List String) (dec : Nat → String) (minC minC' : ℚ) (h : minC ≤ minC') :
    (yoloDecode array nC cns minC').length ≤ (yoloDecode array nC cns minC).length ∧
    ∀ out out', onehotDecode array depth dec minC = .ok out →
      onehotDecode array depth dec minC' = .ok out' → out'.length ≤ out.length := by
  constructor
  · unfold yoloDecode
    dsimp only
    apply length_filterMap_le_of_isSome
    intro a hsome'
    obtain ⟨r, hr⟩ := Option.isSome_iff_exists.mp hsome'
    obtain ⟨_, hlt', hge', _⟩ := yoloStep_eq_some _ _ _ _ _ _ hr
    have hlt : jsLt (array.get? (a * (5 + nC) + 4)) minC = false :=
      jsLt_anti _ _ _ h hlt'
    have hge : jsGe (jsMul (array.get? (a * (5 + nC) + 4))
        ((argmaxFirst ((array.drop (a * (5 + nC) + 5)).take nC)).map Prod.snd)) minC = true :=
      jsGe_anti _ _ _ h hge'
    unfold yoloStep
    dsimp only
    rw [if_neg (by rw [hlt]; simp), if_pos hge]
    rfl
  · intro out out' hout hout'
    by_cases hlen : array.length = 0
    · rw [onehotDecode, if_pos hlen] at hout
      exact absurd hout (by simp)
    by_cases hmod : array.length % depth = 0
    · have hok : ∀ mc : ℚ, onehotDecode array depth dec mc =
          .ok ((List.range (array.length / depth)).filterMap
            (onehotStep array depth dec mc)) := by
        intro mc
        simp [onehotDecode, hlen, hmod]
      rw [hok minC] at hout
      rw [hok minC'] at hout'
      obtain rfl : out = _ := (Except.ok.inj hout).symm
      obtain rfl : out' = _ := (Except.ok.inj hout').symm
      apply length_filterMap_le_of_isSome
      intro a hsome'
      obtain ⟨r, hr⟩ := Option.isSome_iff_exists.mp hsome'
      obtain ⟨_, i, m, harg, hc, _⟩ := onehotStep_eq_some _ _ _ _ _ _ hr
      unfold onehotStep
      rw [harg]
      dsimp only
      rw [if_pos (le_trans h hc)]
      rfl
    · simp [onehotDecode, hlen, hmod] at hout

theorem C7_minConfidence_monotone_witness :
    (yoloDecode [1/2, 1/2, 1/10, 0, 1, 0] 2 [] (3/5)).length ≤
      (yoloDecode [1/2, 1/2, 1/10, 0, 1, 0] 2 [] 0).length ∧
    ([⟨"b", 1, 1⟩] : List DecodedCharacter).length ≤
      ([⟨"a", 1/2, 0⟩, ⟨"b", 1, 1⟩] : List DecodedCharacter).length :=
  ⟨(C7_minConfidence_monotone [1/2, 1/2, 1/10, 0, 1, 0] 3 2 [] lowercaseDecoder 0 (3/5)
      (by with_unfolding_all decide)).1,
   (C7_minConfidence_monotone [1/2, 1/2, 1/10, 0, 1, 0] 3 2 [] lowercaseDecoder 0 (3/5)
      (by with_unfolding_all decide)).2
     [⟨"a", 1/2, 0⟩, ⟨"b", 1, 1⟩] [⟨"b", 1, 1⟩]
     (by with_unfolding_all rfl) (by with_unfolding_all rfl)⟩

/-! ### Short buffers and missing class names -/

/-- C9 counterexample: a buffer of length 6, shorter than one full record for
`numClasses = 2` (stride `5 + 2 = 7`), still emits a result: the loop bound
`array.length / stride` is a float division, so the loop body runs once, the
in-range `objectness` read at index 4 passes the prefilter, and the single
in-range class probability at index 5 wins the scan. -/
theorem C9_short_buffer_counterexample :
    ([0, 0, 0, 0, 1, 1] : List ℚ).length < 5 + 2 ∧
    yoloDecode [0, 0, 0, 0, 1, 1] 2 [] (1/4) ≠ [] := by
  constructor
  · decide
  · with_unfolding_all decide

/-- C9 (amended): for every input buffer of length `< 5` — too short to put
even the `objectness` field in range — including the empty buffer, the box
decoder returns the empty result list without signalling any error; it has no
empty-input or divisibility check. (Buffers shorter than one full record but
of length `>= 5` can still emit results, see the counterexample.) -/
theorem C9_short_buffer_empty (array : List ℚ) (nC : Nat) (cns : List String)
    (minC : ℚ) (h : array.length < 5) :
    yoloDecode array nC cns minC = [] := by
  unfold yoloDecode
  dsimp only
  rw [List.filterMap_eq_nil_iff]
  intro a _
  have hobj : array.get? (a * (5 + nC) + 4) = none :=
    List.get?_eq_none.mpr (by omega)
  have hdrop : array.drop (a * (5 + nC) + 5) = [] :=
    List.drop_eq_nil_of_le (by omega)
  unfold yoloStep
  dsimp only
  rw [hobj, hdrop]
  rfl

theorem C9_short_buffer_empty_witness :
    yoloDecode [] 80 [] (1/4) = [] :=
  C9_short_buffer_empty [] 80 [] (1/4) (by decide)

/-- C10: with the default detector configuration's empty `classNames` list,
no selected class index has an entry, so every emitted result's `class` field
is the string `class_` followed by the class index, and decoding does not
fail (it is total and returns the list of emitted results). The index is the
scan's final `maxClassIdx`, which lies in `[-1, numClasses)`. -/
theorem C10_missing_class_name (array : List ℚ) (nC : Nat) (minC : ℚ) :
    ∀ r ∈ yoloDecode array nC [] minC, ∃ idx : Int,
      -1 ≤ idx ∧ idx < (nC : Int) ∧ r.value.«class» = "class_" ++ toString idx := by
  intro r hr
  unfold yoloDecode at hr
  dsimp only at hr
  obtain ⟨a, _, hstep⟩ := List.mem_filterMap.mp hr
  obtain ⟨_, _, _, hreq⟩ := yoloStep_eq_some _ _ _ _ _ _ hstep
  refine ⟨classIdx (argmaxFirst ((array.drop (a * (5 + nC) + 5)).take nC)), ?_, ?_, ?_⟩
  · cases harg : argmaxFirst ((array.drop (a * (5 + nC) + 5)).take nC) with
    | none => simp [classIdx]
    | some pr =>
      obtain ⟨c, m⟩ := pr
      simp [classIdx]
      omega
  · cases harg : argmaxFirst ((array.drop (a * (5 + nC) + 5)).take nC) with
    | none =>
      simp [classIdx]
      omega
    | some pr =>
      obtain ⟨c, m⟩ := pr
      have hc := argmaxFirst_lt_length _ _ _ harg
      have hcn : c < nC :=
        lt_of_lt_of_le hc (by rw [List.length_take]; exact Nat.min_le_left _ _)
      simp [classIdx]
      exact_mod_cast hcn
  · rw [hreq]
    simp [pickClassName]

theorem C10_missing_class_name_witness :
    ∃ idx : Int, -1 ≤ idx ∧ idx < ((2 : Nat) : Int) ∧
      ({ value := { x := 0, y := 0, width := 0, height := 0, «class» := "class_0",
                    confidence := .fin 1 },
         confidence := .fin 1, position := 0 } : YoloResult).value.«class» =
        "class_" ++ toString idx :=
  C10_missing_class_name [0, 0, 0, 0, 1, 1] 2 (1/4) _ (by with_unfolding_all decide)

/-! ### Model-service lifecycle (`BaseONNXModelService`, `HuntbotModelService`)

State machine of the abstract base class: `session` is the ONNX inference
session (`null` as `none`, ids are opaque), `initPromise` the memoized
in-flight `loadModel()` promise (identified by the index of the load that
created it), and `loadCount` the number of loads ever started — the spec's
observable "load-counter collaborator". The outcome of the k-th load is the
environment's choice: `InferenceSession.create` is external. -/

/-- Outcome of a started model load. -/
inductive LoadOutcome where
  | success (sid : Nat)
  | failure
deriving DecidableEq, Repr

/-- Mutable fields of a `BaseONNXModelService` instance. -/
structure ServiceState where
  session : Option Nat
  initPromise : Option Nat
  loadCount : Nat
deriving DecidableEq, Repr

/-- The synchronous section of `initialize()`: return at once when the
session is set (`none` promise); otherwise memoize a fresh `loadModel()`
promise if none is memoized yet, and hand back the memoized promise. -/
def initializeStart (s : ServiceState) : ServiceState × Option Nat :=
  if s.session.isSome then (s, none)
  else
    match s.initPromise with
    | some k => (s, some k)
    | none =>
      ({ s with initPromise := some s.loadCount, loadCount := s.loadCount + 1 },
        some s.loadCount)

/-- Awaiting the memoized load promise `k`: on success `loadModel` has set
`this.session`; on failure it threw `Failed to initialize Huntbot model` and
changed nothing — in particular the memo keeps pointing at the rejected
promise. -/
def settle (env : Nat → LoadOutcome) (s : ServiceState) (k : Nat) :
    ServiceState × Except String Unit :=
  match env k with
  | .success sid => ({ s with session := some sid }, .ok ())
  | .failure => (s, .error "Failed to initialize Huntbot model")

/-- `initialize()`: the synchronous section followed by awaiting the promise
it returned (early return when the session is already set). -/
def initializeModel (env : Nat → LoadOutcome) (s : ServiceState) :
    ServiceState × Except String Unit :=
  match initializeStart s with
  | (s1, none) => (s1, .ok ())
  | (s1, some k) => settle env s1 k

/-- `isInitialized()`: `this.session !== null`. -/
def isInitialized (s : ServiceState) : Bool := s.session.isSome

/-- `dispose()`: release the session and clear the initialization memo. -/
def dispose (s : ServiceState) : ServiceState :=
  { s with session := none, initPromise := none }

/-- `HuntbotModelService.predict()`: awaits `initialize()`, then runs the
preprocess → inference → decode pipeline (external collaborators, modelled
as succeeding with the session id); every error thrown underneath is caught
and re-wrapped with the stage message. -/
def predict (env : Nat → LoadOutcome) (s : ServiceState) :
    ServiceState × Except String Nat :=
  match initializeModel env s with
  | (s1, .error e) => (s1, .error ("Failed to solve Huntbot captcha: " ++ e))
  | (s1, .ok ()) =>
    match s1.session with
    | none => (s1, .error ("Failed to solve Huntbot captcha: " ++ "Session not initialized"))
    | some sid => (s1, .ok sid)

/-- C4: `initialize()` is idempotent and starts the underlying model load at
most once: on a fresh instance the first (synchronous) call memoizes the
in-flight load and bumps the load counter; a second call arriving while the
memo is set returns that same promise and changes nothing; a call that finds
the memo set returns it without starting a load; settling the promise —
success or failure — never clears the memo; only `dispose()` clears it. -/
theorem C4_initialize_memoized_once (env : Nat → LoadOutcome) (s : ServiceState) :
    (s.session = none → s.initPromise = none →
      initializeStart s =
        ({ s with initPromise := some s.loadCount, loadCount := s.loadCount + 1 },
          some s.loadCount) ∧
      initializeStart (initializeStart s).1 = ((initializeStart s).1, some s.loadCount)) ∧
    (∀ k, s.session = none → s.initPromise = some k →
      initializeStart s = (s, some k)) ∧
    (∀ k, ((settle env s k).1).initPromise = s.initPromise) ∧
    (dispose s).initPromise = none := by
  refine ⟨?_, ?_, ?_, rfl⟩
  · intro hsess hmemo
    constructor
    · simp [initializeStart, hsess, hmemo]
    · simp [initializeStart, hsess, hmemo]
  · intro k hsess hmemo
    simp [initializeStart, hsess, hmemo]
  · intro k
    unfold settle
    cases env k <;> rfl

theorem C4_initialize_memoized_once_witness :
    (initializeStart ⟨none, none, 0⟩ = (⟨none, some 0, 1⟩, some 0) ∧
      initializeStart (initializeStart ⟨none, none, 0⟩).1 =
        ((initializeStart ⟨none, none, 0⟩).1, some 0)) ∧
    ((settle (fun _ => LoadOutcome.success 7) ⟨none, some 0, 1⟩ 0).1).initPromise =
      some 0 ∧
    (dispose ⟨some 7, some 0, 1⟩).initPromise = none :=
  ⟨(C4_initialize_memoized_once (fun _ => LoadOutcome.success 7)
      ⟨none, none, 0⟩).1 rfl rfl,
   (C4_initialize_memoized_once (fun _ => LoadOutcome.success 7)
      ⟨none, some 0, 1⟩).2.2.1 0,
   (C4_initialize_memoized_once (fun _ => LoadOutcome.success 7)
      ⟨some 7, some 0, 1⟩).2.2.2⟩

/-- C3 counterexample: with a permanently failing loader and a fresh
instance, `initialize()` rejects and leaves the singleton not-ready — but the
subsequent `predict()` on the same instance does NOT re-attempt the model
load: the failed memoized promise is reused (`loadCount` stays `1`) and the
call merely fails again with the wrapped load error. -/
theorem C3_predict_no_reload_counterexample :
    (initializeModel (fun _ => LoadOutcome.failure) ⟨none, none, 0⟩).2 =
      .error "Failed to initialize Huntbot model" ∧
    (initializeModel (fun _ => LoadOutcome.failure) ⟨none, none, 0⟩).1 =
      ⟨none, some 0, 1⟩ ∧
    isInitialized ⟨none, some 0, 1⟩ = false ∧
    predict (fun _ => LoadOutcome.failure) ⟨none, some 0, 1⟩ =
      (⟨none, some 0, 1⟩,
        .error "Failed to solve Huntbot captcha: Failed to initialize Huntbot model") ∧
    ¬((predict (fun _ => LoadOutcome.failure) ⟨none, some 0, 1⟩).1.loadCount >
        (⟨none, some 0, 1⟩ : ServiceState).loadCount) := by
  exact ⟨rfl, rfl, rfl, rfl, by decide⟩

/-- C3 (amended): after the model load fails and `initialize()` rejects, the
singleton is left not-ready, but a future `predict()` call on the same
instance does not re-attempt the load: it reuses the failed memoized promise
(no new load is started) and fails again with the wrapped load error; only
after `dispose()` clears the memo does the next `initialize()` start a fresh
load. -/
theorem C3_failed_load_memo_reuse (env : Nat → LoadOutcome) (s : ServiceState)
    (hsess : s.session = none) (hmemo : s.initPromise = none)
    (hfail : env s.loadCount = .failure) :
    (initializeModel env s).2 = .error "Failed to initialize Huntbot model" ∧
    isInitialized (initializeModel env s).1 = false ∧
    predict env (initializeModel env s).1 =
      ((initializeModel env s).1,
        .error "Failed to solve Huntbot captcha: Failed to initialize Huntbot model") ∧
    (predict env (initializeModel env s).1).1.loadCount =
      (initializeModel env s).1.loadCount ∧
    (initializeStart (dispose (initializeModel env s).1)).1.loadCount =
      (initializeModel env s).1.loadCount + 1 := by
  have h1 : initializeModel env s =
      ({ s with initPromise := some s.loadCount, loadCount := s.loadCount + 1 },
        .error "Failed to initialize Huntbot model") := by
    unfold initializeModel initializeStart settle
    simp [hsess, hmemo, hfail]
  have h2 : predict env (initializeModel env s).1 =
      ((initializeModel env s).1,
        .error "Failed to solve Huntbot captcha: Failed to initialize Huntbot model") := by
    rw [h1]
    unfold predict initializeModel initializeStart settle
    simp [hsess, hfail]
  refine ⟨by rw [h1], by rw [h1]; simp [isInitialized, hsess], h2, by rw [h2], ?_⟩
  rw [h1]
  simp [initializeStart, dispose]

theorem C3_failed_load_memo_reuse_witness :
    (initializeModel (fun _ => LoadOutcome.failure) ⟨none, none, 5⟩).2 =
      .error "Failed to initialize Huntbot model" ∧
    isInitialized (initializeModel (fun _ => LoadOutcome.failure) ⟨none, none, 5⟩).1 = false ∧
    predict (fun _ => LoadOutcome.failure)
        (initializeModel (fun _ => LoadOutcome.failure) ⟨none, none, 5⟩).1 =
      ((initializeModel (fun _ => LoadOutcome.failure) ⟨none, none, 5⟩).1,
        .error "Failed to solve Huntbot captcha: Failed to initialize Huntbot model") ∧
    (predict (fun _ => LoadOutcome.failure)
        (initializeModel (fun _ => LoadOutcome.failure) ⟨none, none, 5⟩).1).1.loadCount =
      (initializeModel (fun _ => LoadOutcome.failure) ⟨none, none, 5⟩).1.loadCount ∧
    (initializeStart (dispose
        (initializeModel (fun _ => LoadOutcome.failure) ⟨none, none, 5⟩).1)).1.loadCount =
      (initializeModel (fun _ => LoadOutcome.failure) ⟨none, none, 5⟩).1.loadCount + 1 :=
  C3_failed_load_memo_reuse (fun _ => LoadOutcome.failure) ⟨none, none, 5⟩ rfl rfl rfl

/-! ### Binarizing preprocessor (`ImagePreprocessor.normalize`) -/

/-- `ImagePreprocessor.normalize`: a zero-initialized float buffer of
`width * height * config.channels` entries. The loop walks the raw byte
buffer with stride `channels` (the decoded image's channel count, so pixel
`i / channels` is visited on iteration `i`), and while the pixel index is
below `targetSize` writes `1.0` iff the pixel's alpha byte
(`buffer[i + 3] ?? 255`, defaulting to opaque when out of range) is strictly
below the configured threshold, else `0.0`. Iterations write successive
pixel indices `0, 1, 2, …`, so the filled buffer is the map below;
`cfgChannels` is `this.config.channels` (the loop needs `channels > 0` to
terminate, as in the source). -/
def ImagePreprocessor.normalize (buffer : List Nat) (width height channels cfgChannels threshold : Nat) :
    List ℚ :=
  let targetSize := width * height * cfgChannels
  let iterations := (buffer.length + channels - 1) / channels
  (List.range targetSize).map fun pixelIndex =>
    if pixelIndex < iterations then
      if buffer.getD (pixelIndex * channels + 3) 255 < threshold then 1 else 0
    else 0

/-- C8: in the binarizing preprocessor, a pixel whose alpha byte is in the
raw buffer is mapped to `1.0` if and only if that alpha value is strictly
below the configured threshold, and to `0.0` otherwise. -/
theorem C8_binarize_by_alpha (buffer : List Nat)
    (width height channels cfgChannels threshold p : Nat)
    (hch : 0 < channels) (hp : p * channels + 3 < buffer.length)
    (hsize : p < width * height * cfgChannels) :
    (ImagePreprocessor.normalize buffer width height channels cfgChannels threshold).getD p 0 =
      if buffer.getD (p * channels + 3) 255 < threshold then 1 else 0 := by
  have hiter : p < (buffer.length + channels - 1) / channels := by
    have h1 : (p + 1) * channels ≤ buffer.length + channels - 1 := by
      have h2 : (p + 1) * channels = p * channels + channels := by ring
      omega
    exact (Nat.le_div_iff_mul_le hch).mpr h1
  unfold ImagePreprocessor.normalize
  dsimp only
  rw [List.getD_eq_getElem _ 0 (by simpa using hsize)]
  simp only [List.getElem_map, List.getElem_range]
  rw [if_pos hiter]

theorem C8_binarize_by_alpha_witness :
    (ImagePreprocessor.normalize [0, 0, 0, 10] 1 1 4 1 254).getD 0 0 = 1 ∧
    (ImagePreprocessor.normalize [0, 0, 0, 255] 1 1 4 1 254).getD 0 0 = 0 :=
  ⟨(C8_binarize_by_alpha [0, 0, 0, 10] 1 1 4 1 254 0
      (by decide) (by decide) (by decide)).trans (by decide),
   (C8_binarize_by_alpha [0, 0, 0, 255] 1 1 4 1 254 0
      (by decide) (by decide) (by decide)).trans (by decide)⟩
